import Mathlib

/-!
Verification of the trie engine of the trie-visualizer repository
(`src/trie/Trie.ts`, surfaced through `src/components/Trie.tsx`).

The TypeScript core is a mutable trie: a `TrieNode` holds a JavaScript
`Map<string, TrieNode>` from single characters to child nodes plus an
`isEndOfWord` flag, and a `Trie` owns a root node.  We embed it shallowly:

* a JavaScript `Map` (unique keys, insertion order, `get`/`set`/`delete`/
  `size`) becomes an association list `List (Char × TrieNode)` with
  `lookupChild` (= `get`/`has`), `setChild` (= `set`: replace in place or
  append), `delChild` (= `delete`: remove the entry) and `List.length`
  (= `size`);
* in-place mutation becomes explicit rebuilding: the recursive `delete`
  helper returns the updated node together with its boolean result, exactly
  mirroring the TypeScript control flow;
* a TypeScript string, iterated character by character, becomes `List Char`.
-/

namespace TrieVis

/-- One trie node: `children` is the JS `Map<string, TrieNode>` modelled as an
association list in insertion order, `isEndOfWord` the boolean flag. -/
inductive TrieNode : Type where
  | mk (children : List (Char × TrieNode)) (isEndOfWord : Bool) : TrieNode

/-- The `children` field. -/
def TrieNode.children : TrieNode → List (Char × TrieNode)
  | .mk cs _ => cs

/-- The `isEndOfWord` field. -/
def TrieNode.isEndOfWord : TrieNode → Bool
  | .mk _ e => e

@[simp] theorem TrieNode.children_mk (cs : List (Char × TrieNode)) (e : Bool) :
    (TrieNode.mk cs e).children = cs := rfl

@[simp] theorem TrieNode.isEndOfWord_mk (cs : List (Char × TrieNode)) (e : Bool) :
    (TrieNode.mk cs e).isEndOfWord = e := rfl

/-- `new TrieNode()`: empty children map, flag false. -/
def TrieNode.fresh : TrieNode := .mk [] false

/-- `map.get(c)` (and `map.has(c)` via `Option.isSome`): first binding of `c`.
Keys of a JS `Map` are unique, so "first" is "the" binding on well-formed
states. -/
def lookupChild (c : Char) : List (Char × TrieNode) → Option TrieNode
  | [] => none
  | (c', n) :: rest => if c' = c then some n else lookupChild c rest

/-- `map.set(c, n)`: overwrite the binding of `c` in place if present,
otherwise append the new binding at the end (JS `Map` insertion order). -/
def setChild (c : Char) (x : TrieNode) : List (Char × TrieNode) → List (Char × TrieNode)
  | [] => [(c, x)]
  | (c', n) :: rest => if c' = c then (c, x) :: rest else (c', n) :: setChild c x rest

/-- `map.delete(c)`: remove the binding of `c`. -/
def delChild (c : Char) : List (Char × TrieNode) → List (Char × TrieNode)
  | [] => []
  | (c', n) :: rest => if c' = c then rest else (c', n) :: delChild c rest

/-- `Trie.insert`, as a function on the node being walked: follow each
character, creating a fresh child where the edge is missing, and mark the
final node. -/
def insertNode (n : TrieNode) : List Char → TrieNode
  | [] => .mk n.children true
  | c :: rest =>
      let child := match lookupChild c n.children with
        | some ch => ch
        | none => TrieNode.fresh
      .mk (setChild c (insertNode child rest) n.children) n.isEndOfWord

/-- `Trie.searchWord`, as a function on the node being walked: follow each
character, failing on a missing edge, and return the final flag. -/
def searchNode (n : TrieNode) : List Char → Bool
  | [] => n.isEndOfWord
  | c :: rest =>
      match lookupChild c n.children with
      | none => false
      | some child => searchNode child rest

/-- `Trie.startsWith`, as a function on the node being walked: follow each
character, failing on a missing edge, and succeed once the path is consumed. -/
def startsWithNode (n : TrieNode) : List Char → Bool
  | [] => true
  | c :: rest =>
      match lookupChild c n.children with
      | none => false
      | some child => startsWithNode child rest

/-- The recursive `helper` inside `Trie.delete`.  The TypeScript helper
mutates `node` and returns a boolean telling the parent whether to unlink
this child; here it returns the updated node paired with that boolean.
The `index === word.length` base case is the `[]` case; `word[index]` is the
head of the remaining list. -/
def deleteHelper (n : TrieNode) : List Char → TrieNode × Bool
  | [] =>
      if n.isEndOfWord then
        (.mk n.children false, n.children.length == 0)
      else (n, false)
  | c :: rest =>
      match lookupChild c n.children with
      | none => (n, false)
      | some child =>
          let r := deleteHelper child rest
          if r.2 then
            let cs := delChild c n.children
            (.mk cs n.isEndOfWord, cs.length == 0 && !n.isEndOfWord)
          else
            (.mk (setChild c r.1 n.children) n.isEndOfWord, false)

/-- The `Trie` class: it owns the root node. -/
structure Trie : Type where
  root : TrieNode

/-- `new Trie()`: a fresh root. -/
def Trie.new : Trie := ⟨TrieNode.fresh⟩

/-- `Trie.insert(word)`. -/
def Trie.insert (t : Trie) (w : List Char) : Trie := ⟨insertNode t.root w⟩

/-- `Trie.searchWord(word)`. -/
def Trie.searchWord (t : Trie) (w : List Char) : Bool := searchNode t.root w

/-- `Trie.startsWith(word)`. -/
def Trie.startsWith (t : Trie) (w : List Char) : Bool := startsWithNode t.root w

/-- `Trie.delete(word)`: `return helper(this.root, word, 0)`, together with
the post-call state of the trie. -/
def Trie.delete (t : Trie) (w : List Char) : Trie × Bool :=
  ((⟨(deleteHelper t.root w).1⟩ : Trie), (deleteHelper t.root w).2)

/-! Structural predicates used to state the claims.  `wf` says every
`children` list has pairwise-distinct keys, recursively — the defining
property of a JS `Map`, which every reachable trie state enjoys.  `hasWord`
says the subtree rooted at a node contains some end-of-word node.  `pruned`
says every (non-root) descendant subtree contains an end-of-word node — the
"no dangling non-terminal leaf" invariant.  `nodeCount` counts the nodes of
a subtree, the node itself included. -/

mutual

/-- Keys are pairwise distinct in every `children` map of the subtree. -/
def wf : TrieNode → Bool
  | .mk cs _ => wfList cs

/-- List version of `wf`. -/
def wfList : List (Char × TrieNode) → Bool
  | [] => true
  | (c, n) :: rest => !(lookupChild c rest).isSome && wf n && wfList rest

end

mutual

/-- The subtree rooted here contains a node with `isEndOfWord = true`. -/
def hasWord : TrieNode → Bool
  | .mk cs e => e || hasWordList cs

/-- Some entry's subtree contains an end-of-word node. -/
def hasWordList : List (Char × TrieNode) → Bool
  | [] => false
  | (_, n) :: rest => hasWord n || hasWordList rest

end

mutual

/-- Every child subtree contains an end-of-word node, recursively: no
dangling chain of non-terminal nodes anywhere below this node. -/
def pruned : TrieNode → Bool
  | .mk cs _ => prunedList cs

/-- List version of `pruned`. -/
def prunedList : List (Char × TrieNode) → Bool
  | [] => true
  | (_, n) :: rest => hasWord n && pruned n && prunedList rest

end

mutual

/-- Number of nodes in the subtree, this node included. -/
def nodeCount : TrieNode → Nat
  | .mk cs _ => 1 + nodeCountList cs

/-- Total node count of the entries of a children list. -/
def nodeCountList : List (Char × TrieNode) → Nat
  | [] => 0
  | (_, n) :: rest => nodeCount n + nodeCountList rest

end

/-! Basic lemmas about the association-list model of the JS `Map`. -/

theorem lookupChild_setChild_self (c : Char) (x : TrieNode) (l : List (Char × TrieNode)) :
    lookupChild c (setChild c x l) = some x := by
  induction l with
  | nil => simp [setChild, lookupChild]
  | cons hd tl ih =>
      obtain ⟨c', n⟩ := hd
      by_cases h : c' = c <;> simp [setChild, lookupChild, h, ih]

theorem lookupChild_setChild_ne (c c' : Char) (x : TrieNode) (l : List (Char × TrieNode))
    (hne : c' ≠ c) : lookupChild c' (setChild c x l) = lookupChild c' l := by
  induction l with
  | nil => simp [setChild, lookupChild, Ne.symm hne]
  | cons hd tl ih =>
      obtain ⟨c₀, n⟩ := hd
      by_cases h : c₀ = c
      · subst h
        simp [setChild, lookupChild, Ne.symm hne]
      · simp [setChild, lookupChild, h, ih]

theorem lookupChild_delChild_ne (c c' : Char) (l : List (Char × TrieNode))
    (hne : c' ≠ c) : lookupChild c' (delChild c l) = lookupChild c' l := by
  induction l with
  | nil => simp [delChild]
  | cons hd tl ih =>
      obtain ⟨c₀, n⟩ := hd
      by_cases h : c₀ = c
      · subst h
        simp [delChild, lookupChild, Ne.symm hne, ih]
      · simp [delChild, lookupChild, h, ih]

theorem setChild_lookupChild_eq (c : Char) (x : TrieNode) (l : List (Char × TrieNode))
    (h : lookupChild c l = some x) : setChild c x l = l := by
  induction l with
  | nil => simp [lookupChild] at h
  | cons hd tl ih =>
      obtain ⟨c₀, n⟩ := hd
      by_cases hc : c₀ = c
      · subst hc
        simp [lookupChild] at h
        simp [setChild, h]
      · simp [lookupChild, hc] at h
        simp [setChild, hc, ih h]

theorem setChild_setChild (c : Char) (x y : TrieNode) (l : List (Char × TrieNode)) :
    setChild c x (setChild c y l) = setChild c x l := by
  induction l with
  | nil => simp [setChild]
  | cons hd tl ih =>
      obtain ⟨c₀, n⟩ := hd
      by_cases h : c₀ = c <;> simp [setChild, h, ih]

/-! Equation lemmas for the mutually recursive predicates. -/

@[simp] theorem wf_mk (cs : List (Char × TrieNode)) (e : Bool) :
    wf (.mk cs e) = wfList cs := by rw [wf]

@[simp] theorem wfList_nil : wfList [] = true := by rw [wfList]

@[simp] theorem wfList_cons (c : Char) (n : TrieNode) (rest : List (Char × TrieNode)) :
    wfList ((c, n) :: rest) = (!(lookupChild c rest).isSome && wf n && wfList rest) := by
  rw [wfList]

@[simp] theorem hasWord_mk (cs : List (Char × TrieNode)) (e : Bool) :
    hasWord (.mk cs e) = (e || hasWordList cs) := by rw [hasWord]

@[simp] theorem hasWordList_nil : hasWordList [] = false := by rw [hasWordList]

@[simp] theorem hasWordList_cons (c : Char) (n : TrieNode) (rest : List (Char × TrieNode)) :
    hasWordList ((c, n) :: rest) = (hasWord n || hasWordList rest) := by rw [hasWordList]

@[simp] theorem pruned_mk (cs : List (Char × TrieNode)) (e : Bool) :
    pruned (.mk cs e) = prunedList cs := by rw [pruned]

@[simp] theorem prunedList_nil : prunedList [] = true := by rw [prunedList]

@[simp] theorem prunedList_cons (c : Char) (n : TrieNode) (rest : List (Char × TrieNode)) :
    prunedList ((c, n) :: rest) = (hasWord n && pruned n && prunedList rest) := by rw [prunedList]

@[simp] theorem nodeCount_mk (cs : List (Char × TrieNode)) (e : Bool) :
    nodeCount (.mk cs e) = 1 + nodeCountList cs := by rw [nodeCount]

@[simp] theorem nodeCountList_nil : nodeCountList [] = 0 := by rw [nodeCountList]

@[simp] theorem nodeCountList_cons (c : Char) (n : TrieNode) (rest : List (Char × TrieNode)) :
    nodeCountList ((c, n) :: rest) = nodeCount n + nodeCountList rest := by rw [nodeCountList]

/-! Well-formedness facts. -/

theorem wf_of_lookupChild {l : List (Char × TrieNode)} {c : Char} {x : TrieNode}
    (hwf : wfList l = true) (h : lookupChild c l = some x) : wf x = true := by
  induction l with
  | nil => simp [lookupChild] at h
  | cons hd tl ih =>
      obtain ⟨c₀, n⟩ := hd
      simp only [wfList_cons, Bool.and_eq_true] at hwf
      by_cases hc : c₀ = c
      · subst hc
        simp [lookupChild] at h
        exact h ▸ hwf.1.2
      · simp [lookupChild, hc] at h
        exact ih hwf.2 h

theorem lookupChild_delChild_self {l : List (Char × TrieNode)} (c : Char)
    (hwf : wfList l = true) : lookupChild c (delChild c l) = none := by
  induction l with
  | nil => simp [delChild, lookupChild]
  | cons hd tl ih =>
      obtain ⟨c₀, n⟩ := hd
      simp only [wfList_cons, Bool.and_eq_true] at hwf
      by_cases hc : c₀ = c
      · subst hc
        simp [delChild]
        have := hwf.1.1
        cases h : lookupChild c₀ tl with
        | none => rfl
        | some y => simp [h] at this
      · simp [delChild, hc, lookupChild, ih hwf.2]

theorem wfList_setChild {l : List (Char × TrieNode)} {c : Char} {x : TrieNode}
    (hx : wf x = true) (hwf : wfList l = true) : wfList (setChild c x l) = true := by
  induction l with
  | nil => simp [setChild, lookupChild, hx]
  | cons hd tl ih =>
      obtain ⟨c₀, n⟩ := hd
      simp only [wfList_cons, Bool.and_eq_true] at hwf
      by_cases hc : c₀ = c
      · subst hc
        simp [setChild, hx, hwf.1.1, hwf.2]
      · simp only [setChild, hc, if_false, wfList_cons, Bool.and_eq_true]
        refine ⟨⟨?_, hwf.1.2⟩, ih hwf.2⟩
        rw [lookupChild_setChild_ne c c₀ x tl hc]
        exact hwf.1.1

theorem wfList_delChild {l : List (Char × TrieNode)} (c : Char)
    (hwf : wfList l = true) : wfList (delChild c l) = true := by
  induction l with
  | nil => simp [delChild]
  | cons hd tl ih =>
      obtain ⟨c₀, n⟩ := hd
      simp only [wfList_cons, Bool.and_eq_true] at hwf
      by_cases hc : c₀ = c
      · subst hc
        simp [delChild, hwf.2]
      · simp only [delChild, hc, if_false, wfList_cons, Bool.and_eq_true]
        refine ⟨⟨?_, hwf.1.2⟩, ih hwf.2⟩
        rw [lookupChild_delChild_ne c c₀ tl hc]
        exact hwf.1.1

theorem TrieNode.eta (n : TrieNode) : TrieNode.mk n.children n.isEndOfWord = n := by
  cases n
  rfl

/-! Facts about `deleteHelper`. -/

theorem deleteHelper_true_empty (n : TrieNode) (w : List Char)
    (h : (deleteHelper n w).2 = true) :
    (deleteHelper n w).1.children = [] ∧ (deleteHelper n w).1.isEndOfWord = false := by
  cases w with
  | nil =>
      by_cases he : n.isEndOfWord
      · simp only [deleteHelper, he, if_true] at h ⊢
        simp only [beq_iff_eq, List.length_eq_zero] at h
        simp [h]
      · simp [deleteHelper, he] at h
  | cons c rest =>
      cases hl : lookupChild c n.children with
      | none => simp [deleteHelper, hl] at h
      | some child =>
          by_cases hr : (deleteHelper child rest).2
          · simp only [deleteHelper, hl, hr, if_true] at h ⊢
            simp only [Bool.and_eq_true, beq_iff_eq, List.length_eq_zero,
              Bool.not_eq_true'] at h
            simp [h.1, h.2]
          · simp [deleteHelper, hl, hr] at h

theorem deleteHelper_not_found (n : TrieNode) (w : List Char)
    (h : searchNode n w = false) : deleteHelper n w = (n, false) := by
  induction w generalizing n with
  | nil =>
      simp only [searchNode] at h
      simp [deleteHelper, h]
  | cons c rest ih =>
      cases hl : lookupChild c n.children with
      | none => simp [deleteHelper, hl]
      | some child =>
          have hc : searchNode child rest = false := by
            simpa [searchNode, hl] using h
          simp [deleteHelper, hl, ih child hc, setChild_lookupChild_eq c child n.children hl,
            TrieNode.eta]

/-! Facts about `insertNode`. -/

theorem searchNode_insertNode_self (w : List Char) (n : TrieNode) :
    searchNode (insertNode n w) w = true := by
  induction w generalizing n with
  | nil => simp [insertNode, searchNode]
  | cons c rest ih =>
      cases hl : lookupChild c n.children with
      | none =>
          simp [insertNode, searchNode, hl, lookupChild_setChild_self, ih]
      | some child =>
          simp [insertNode, searchNode, hl, lookupChild_setChild_self, ih]

theorem startsWithNode_insertNode_append (p q : List Char) (n : TrieNode) :
    startsWithNode (insertNode n (p ++ q)) p = true := by
  induction p generalizing n with
  | nil => simp [startsWithNode]
  | cons c p' ih =>
      cases hl : lookupChild c n.children with
      | none =>
          simp [insertNode, startsWithNode, hl, lookupChild_setChild_self, ih]
      | some child =>
          simp [insertNode, startsWithNode, hl, lookupChild_setChild_self, ih]

theorem insertNode_idem (w : List Char) (n : TrieNode) :
    insertNode (insertNode n w) w = insertNode n w := by
  induction w generalizing n with
  | nil => simp [insertNode]
  | cons c rest ih =>
      cases hl : lookupChild c n.children with
      | none =>
          simp [insertNode, hl, lookupChild_setChild_self, ih, setChild_setChild]
      | some child =>
          simp [insertNode, hl, lookupChild_setChild_self, ih, setChild_setChild]

theorem wf_insertNode (w : List Char) (n : TrieNode) (hwf : wf n = true) :
    wf (insertNode n w) = true := by
  induction w generalizing n with
  | nil =>
      cases n with
      | mk cs e => simpa [insertNode] using hwf
  | cons c rest ih =>
      cases n with
      | mk cs e =>
          simp only [wf_mk] at hwf
          cases hl : lookupChild c cs with
          | none =>
              have hchild : wf TrieNode.fresh = true := by simp [TrieNode.fresh]
              simp only [insertNode, TrieNode.children_mk, hl, TrieNode.isEndOfWord_mk, wf_mk]
              exact wfList_setChild (ih _ hchild) hwf
          | some child =>
              have hchild : wf child = true := wf_of_lookupChild hwf hl
              simp only [insertNode, TrieNode.children_mk, hl, TrieNode.isEndOfWord_mk, wf_mk]
              exact wfList_setChild (ih _ hchild) hwf

theorem hasWordList_setChild {x : TrieNode} (c : Char) (l : List (Char × TrieNode))
    (hx : hasWord x = true) : hasWordList (setChild c x l) = true := by
  induction l with
  | nil => simp [setChild, hx]
  | cons hd tl ih =>
      obtain ⟨c₀, n⟩ := hd
      by_cases hc : c₀ = c <;> simp [setChild, hc, hx, ih]

theorem hasWord_insertNode (w : List Char) (n : TrieNode) :
    hasWord (insertNode n w) = true := by
  cases w with
  | nil => simp [insertNode]
  | cons c rest =>
      cases hl : lookupChild c n.children with
      | none => simp [insertNode, hl, hasWordList_setChild, hasWord_insertNode rest]
      | some child => simp [insertNode, hl, hasWordList_setChild, hasWord_insertNode rest]

theorem prunedList_lookupChild {l : List (Char × TrieNode)} {c : Char} {x : TrieNode}
    (hp : prunedList l = true) (h : lookupChild c l = some x) :
    hasWord x = true ∧ pruned x = true := by
  induction l with
  | nil => simp [lookupChild] at h
  | cons hd tl ih =>
      obtain ⟨c₀, n⟩ := hd
      simp only [prunedList_cons, Bool.and_eq_true] at hp
      by_cases hc : c₀ = c
      · subst hc
        simp [lookupChild] at h
        exact h ▸ ⟨hp.1.1, hp.1.2⟩
      · simp [lookupChild, hc] at h
        exact ih hp.2 h

theorem prunedList_setChild {x : TrieNode} {l : List (Char × TrieNode)} (c : Char)
    (hx : hasWord x = true) (hpx : pruned x = true) (hp : prunedList l = true) :
    prunedList (setChild c x l) = true := by
  induction l with
  | nil => simp [setChild, hx, hpx]
  | cons hd tl ih =>
      obtain ⟨c₀, n⟩ := hd
      simp only [prunedList_cons, Bool.and_eq_true] at hp
      by_cases hc : c₀ = c
      · subst hc
        simp [setChild, hx, hpx, hp.2]
      · simp [setChild, hc, hp.1.1, hp.1.2, ih hp.2]

theorem prunedList_delChild {l : List (Char × TrieNode)} (c : Char)
    (hp : prunedList l = true) : prunedList (delChild c l) = true := by
  induction l with
  | nil => simp [delChild]
  | cons hd tl ih =>
      obtain ⟨c₀, n⟩ := hd
      simp only [prunedList_cons, Bool.and_eq_true] at hp
      by_cases hc : c₀ = c
      · subst hc
        simp [delChild, hp.2]
      · simp [delChild, hc, hp.1.1, hp.1.2, ih hp.2]

theorem hasWordList_of_prunedList {l : List (Char × TrieNode)}
    (hp : prunedList l = true) (hne : l ≠ []) : hasWordList l = true := by
  cases l with
  | nil => exact absurd rfl hne
  | cons hd tl =>
      obtain ⟨c₀, n⟩ := hd
      simp only [prunedList_cons, Bool.and_eq_true] at hp
      simp [hp.1.1]

theorem pruned_insertNode (w : List Char) (n : TrieNode) (hp : pruned n = true) :
    pruned (insertNode n w) = true := by
  induction w generalizing n with
  | nil =>
      cases n with
      | mk cs e => simpa [insertNode] using hp
  | cons c rest ih =>
      cases n with
      | mk cs e =>
          simp only [pruned_mk] at hp
          cases hl : lookupChild c cs with
          | none =>
              have hchild : pruned TrieNode.fresh = true := by simp [TrieNode.fresh]
              simp only [insertNode, TrieNode.children_mk, hl, TrieNode.isEndOfWord_mk, pruned_mk]
              exact prunedList_setChild c (hasWord_insertNode rest _) (ih _ hchild) hp
          | some child =>
              have hchild : pruned child = true := (prunedList_lookupChild hp hl).2
              simp only [insertNode, TrieNode.children_mk, hl, TrieNode.isEndOfWord_mk, pruned_mk]
              exact prunedList_setChild c (hasWord_insertNode rest _) (ih _ hchild) hp

theorem wf_deleteHelper (w : List Char) (n : TrieNode) (hwf : wf n = true) :
    wf (deleteHelper n w).1 = true := by
  induction w generalizing n with
  | nil =>
      cases n with
      | mk cs e =>
          by_cases he : (TrieNode.mk cs e).isEndOfWord <;>
            simpa [deleteHelper, he] using hwf
  | cons c rest ih =>
      cases n with
      | mk cs e =>
          simp only [wf_mk] at hwf
          cases hl : lookupChild c cs with
          | none => simpa [deleteHelper, hl] using hwf
          | some child =>
              have hchild : wf child = true := wf_of_lookupChild hwf hl
              by_cases hr : (deleteHelper child rest).2
              · simp only [deleteHelper, TrieNode.children_mk, hl, hr, if_true, wf_mk]
                exact wfList_delChild c hwf
              · simp only [deleteHelper, TrieNode.children_mk, hl, hr, if_false, wf_mk]
                exact wfList_setChild (ih _ hchild) hwf

theorem searchNode_empty (v : List Char) : searchNode (TrieNode.mk [] false) v = false := by
  cases v <;> simp [searchNode, lookupChild]

theorem searchNode_deleteHelper_self (w : List Char) (n : TrieNode) (hwf : wf n = true) :
    searchNode (deleteHelper n w).1 w = false := by
  induction w generalizing n with
  | nil =>
      cases n with
      | mk cs e => cases e <;> simp [deleteHelper, searchNode]
  | cons c rest ih =>
      cases n with
      | mk cs e =>
          simp only [wf_mk] at hwf
          cases hl : lookupChild c cs with
          | none => simp [deleteHelper, searchNode, hl]
          | some child =>
              have hchild : wf child = true := wf_of_lookupChild hwf hl
              by_cases hr : (deleteHelper child rest).2
              · simp only [deleteHelper, TrieNode.children_mk, hl, hr, if_true]
                simp [searchNode, lookupChild_delChild_self c hwf]
              · simp only [deleteHelper, TrieNode.children_mk, hl, hr, if_false]
                simp [searchNode, lookupChild_setChild_self, ih _ hchild]

theorem searchNode_deleteHelper_ne (w v : List Char) (n : TrieNode) (hwf : wf n = true)
    (hv : v ≠ w) : searchNode (deleteHelper n w).1 v = searchNode n v := by
  induction w generalizing n v with
  | nil =>
      cases n with
      | mk cs e =>
          cases v with
          | nil => exact absurd rfl hv
          | cons c' v' =>
              by_cases he : (TrieNode.mk cs e).isEndOfWord <;>
                simp [deleteHelper, he, searchNode]
  | cons c rest ih =>
      cases n with
      | mk cs e =>
          simp only [wf_mk] at hwf
          cases hl : lookupChild c cs with
          | none => simp [deleteHelper, hl]
          | some child =>
              have hchild : wf child = true := wf_of_lookupChild hwf hl
              by_cases hr : (deleteHelper child rest).2
              · simp only [deleteHelper, TrieNode.children_mk, hl, hr, if_true]
                cases v with
                | nil => simp [searchNode]
                | cons c' v' =>
                    by_cases hcc : c' = c
                    · subst hcc
                      have hv' : v' ≠ rest := fun h => hv (by rw [h])
                      have hemp := deleteHelper_true_empty child rest hr
                      have hfalse : searchNode (deleteHelper child rest).1 v' = false := by
                        have : (deleteHelper child rest).1 =
                            TrieNode.mk [] false := by
                          cases hdel : (deleteHelper child rest).1 with
                          | mk cs' e' =>
                              rw [hdel] at hemp
                              simp only [TrieNode.children_mk,
                                TrieNode.isEndOfWord_mk] at hemp
                              rw [hemp.1, hemp.2]
                        rw [this]
                        exact searchNode_empty v'
                      have hch : searchNode child v' = false := by
                        rw [← ih v' child hchild hv']
                        exact hfalse
                      simp [searchNode, lookupChild_delChild_self c' hwf, hl, hch]
                    · simp [searchNode, lookupChild_delChild_ne c c' cs hcc]
              · simp only [deleteHelper, TrieNode.children_mk, hl, hr, if_false]
                cases v with
                | nil => simp [searchNode]
                | cons c' v' =>
                    by_cases hcc : c' = c
                    · subst hcc
                      have hv' : v' ≠ rest := fun h => hv (by rw [h])
                      simp [searchNode, lookupChild_setChild_self, hl,
                        ih v' child hchild hv']
                    · simp [searchNode, lookupChild_setChild_ne c c' _ cs hcc]

theorem pruned_deleteHelper (w : List Char) (n : TrieNode) (hp : pruned n = true) :
    pruned (deleteHelper n w).1 = true ∧
      ((deleteHelper n w).2 = false → hasWord n = true → hasWord (deleteHelper n w).1 = true) := by
  induction w generalizing n with
  | nil =>
      cases n with
      | mk cs e =>
          simp only [pruned_mk] at hp
          cases e with
          | false => simp [deleteHelper, hp]
          | true =>
              simp only [deleteHelper, TrieNode.isEndOfWord_mk, if_true, TrieNode.children_mk,
                pruned_mk, hasWord_mk]
              refine ⟨hp, fun h2 _ => ?_⟩
              have hne : cs ≠ [] := by
                intro hnil
                subst hnil
                simp at h2
              simp [hasWordList_of_prunedList hp hne]
  | cons c rest ih =>
      cases n with
      | mk cs e =>
          simp only [pruned_mk] at hp
          cases hl : lookupChild c cs with
          | none => simp [deleteHelper, hl, hp]
          | some child =>
              obtain ⟨hwc, hpc⟩ := prunedList_lookupChild hp hl
              obtain ⟨ihp, ihh⟩ := ih child hpc
              by_cases hr : (deleteHelper child rest).2
              · simp only [deleteHelper, TrieNode.children_mk, hl, hr, if_true,
                  TrieNode.isEndOfWord_mk, pruned_mk, hasWord_mk]
                refine ⟨prunedList_delChild c hp, fun h2 _ => ?_⟩
                cases e with
                | true => simp
                | false =>
                    simp only [Bool.not_false, Bool.and_true] at h2
                    have hne : delChild c cs ≠ [] := by
                      intro hnil
                      rw [hnil] at h2
                      simp at h2
                    simp [hasWordList_of_prunedList (prunedList_delChild c hp) hne]
              · have hwr : hasWord (deleteHelper child rest).1 = true := by
                  have : (deleteHelper child rest).2 = false := by
                    cases hb : (deleteHelper child rest).2
                    · rfl
                    · exact absurd hb hr
                  exact ihh this hwc
                simp only [deleteHelper, TrieNode.children_mk, hl, hr, if_false,
                  TrieNode.isEndOfWord_mk, pruned_mk, hasWord_mk]
                refine ⟨prunedList_setChild c hwr ihp hp, fun _ _ => ?_⟩
                simp [hasWordList_setChild c cs hwr]

/-- Spec-side description used for claim C7: it follows the spec's words
"deleting a word that is also a strict prefix of another inserted word must
retain all nodes down to and including the shared prefix, only unmarking
`isEndOfWord`".  It walks the word's path and clears the flag on the terminal
node, touching nothing else; it is compared with the source-derived
`deleteHelper`. -/
def specEraseEnd (n : TrieNode) : List Char → TrieNode
  | [] => .mk n.children false
  | c :: rest =>
      match lookupChild c n.children with
      | none => n
      | some child => .mk (setChild c (specEraseEnd child rest) n.children) n.isEndOfWord

theorem deleteHelper_of_extension (w : List Char) (c : Char) (s : List Char) (n : TrieNode)
    (hmem : searchNode n w = true) (hext : searchNode n (w ++ c :: s) = true) :
    deleteHelper n w = (specEraseEnd n w, false) := by
  induction w generalizing n with
  | nil =>
      cases n with
      | mk cs e =>
          simp only [searchNode, TrieNode.isEndOfWord_mk] at hmem
          subst hmem
          cases hl : lookupChild c cs with
          | none => simp [searchNode, hl] at hext
          | some child =>
              have hne : cs ≠ [] := by
                intro hnil
                subst hnil
                simp [lookupChild] at hl
              simp only [deleteHelper, TrieNode.isEndOfWord_mk, if_true, TrieNode.children_mk,
                specEraseEnd, Prod.mk.injEq, true_and]
              simpa using hne
  | cons c' rest ih =>
      cases n with
      | mk cs e =>
          cases hl : lookupChild c' cs with
          | none => simp [searchNode, hl] at hmem
          | some child =>
              have hm : searchNode child rest = true := by
                simpa [searchNode, hl] using hmem
              have hx : searchNode child (rest ++ c :: s) = true := by
                have := hext
                simpa [searchNode, hl] using this
              have hrec := ih child hm hx
              simp [deleteHelper, specEraseEnd, hl, hrec]

theorem nodeCountList_setChild {l : List (Char × TrieNode)} {c : Char} {y x : TrieNode}
    (hl : lookupChild c l = some y) (hx : nodeCount x = nodeCount y) :
    nodeCountList (setChild c x l) = nodeCountList l := by
  induction l with
  | nil => simp [lookupChild] at hl
  | cons hd tl ih =>
      obtain ⟨c₀, n⟩ := hd
      by_cases hc : c₀ = c
      · subst hc
        simp [lookupChild] at hl
        subst hl
        simp [setChild, hx]
      · simp [lookupChild, hc] at hl
        simp [setChild, hc, ih hl]

theorem nodeCount_specEraseEnd (w : List Char) (n : TrieNode) :
    nodeCount (specEraseEnd n w) = nodeCount n := by
  induction w generalizing n with
  | nil =>
      cases n with
      | mk cs e => simp [specEraseEnd]
  | cons c rest ih =>
      cases n with
      | mk cs e =>
          cases hl : lookupChild c cs with
          | none => simp [specEraseEnd, hl]
          | some child =>
              simp only [specEraseEnd, TrieNode.children_mk, hl, TrieNode.isEndOfWord_mk,
                nodeCount_mk]
              rw [nodeCountList_setChild hl (ih child)]

/-! Reachable trie states: everything obtainable from `new Trie()` by a
sequence of `insert` and `delete` calls (the only mutating operations the
class exposes). -/

/-- One mutating call on the trie. -/
inductive Op : Type where
  | insertOp : List Char → Op
  | deleteOp : List Char → Op

/-- Apply one mutating call to a trie state. -/
def applyOp (t : Trie) : Op → Trie
  | .insertOp w => t.insert w
  | .deleteOp w => (t.delete w).1

/-- The state after running a call sequence from a freshly constructed trie. -/
def run (ops : List Op) : Trie := ops.foldl applyOp Trie.new

theorem wf_pruned_applyOp (t : Trie) (op : Op)
    (h : wf t.root = true ∧ pruned t.root = true) :
    wf (applyOp t op).root = true ∧ pruned (applyOp t op).root = true := by
  cases op with
  | insertOp w =>
      exact ⟨wf_insertNode w t.root h.1, pruned_insertNode w t.root h.2⟩
  | deleteOp w =>
      exact ⟨wf_deleteHelper w t.root h.1, (pruned_deleteHelper w t.root h.2).1⟩

theorem wf_pruned_foldl (ops : List Op) (t : Trie)
    (h : wf t.root = true ∧ pruned t.root = true) :
    wf (ops.foldl applyOp t).root = true ∧ pruned (ops.foldl applyOp t).root = true := by
  induction ops generalizing t with
  | nil => exact h
  | cons op rest ih => exact ih _ (wf_pruned_applyOp t op h)

/-! The claims. -/

/-- C1: the claim says `delete(w)` returns true iff `w` was a member and was
removed, false iff `w` was not present as a complete word.  The code refutes
it: after inserting "ab" and then "a", the word "a" is a member,
`delete("a")` does remove it (a subsequent `searchWord("a")` returns false),
yet the call returns false — the recursive helper's boolean means "unlink
this node from your parent", and `delete` hands back that flag for the root
unchanged. -/
theorem c1_delete_return_value_bug :
    ((Trie.new.insert "ab".toList).insert "a".toList).searchWord "a".toList = true ∧
    ((((Trie.new.insert "ab".toList).insert "a".toList).delete "a".toList).2 = false ∧
      ((((Trie.new.insert "ab".toList).insert "a".toList).delete "a".toList).1).searchWord
        "a".toList = false) := by
  decide

/-- C2: the claim says `insert(w)` followed by `delete(w)` always makes
`delete` return true.  The code refutes it whenever anything else is in the
trie: with "b" present, insert "a" then delete "a" removes "a" (search is
false afterwards) but returns false, because the root still has the "b"
child so the unwinding never reports true. -/
theorem c2_round_trip_bug :
    (((Trie.new.insert "b".toList).insert "a".toList).delete "a".toList).2 = false ∧
    ((((Trie.new.insert "b".toList).insert "a".toList).delete "a".toList).1).searchWord
      "a".toList = false := by
  decide

/-- C3: the spec's end-to-end example after inserting "gas" and "garlic".
Four of the five observations hold (`startsWith("ga")` true, `searchWord("ga")`
false, and after the delete `searchWord("gas")` true and `startsWith("gar")`
false — the "arlic" chain is pruned back to the shared "ga" node), but
`delete("garlic")` returns false, not true as claimed: the unwinding stops at
the "ga" node, which keeps its "s" child, and that stop is reported as false
all the way out. -/
theorem c3_example_end_to_end :
    ((Trie.new.insert "gas".toList).insert "garlic".toList).startsWith "ga".toList = true ∧
    ((Trie.new.insert "gas".toList).insert "garlic".toList).searchWord "ga".toList = false ∧
    ((((Trie.new.insert "gas".toList).insert "garlic".toList).delete "garlic".toList).2
        = false ∧
      ((((Trie.new.insert "gas".toList).insert "garlic".toList).delete
          "garlic".toList).1).searchWord "gas".toList = true ∧
      ((((Trie.new.insert "gas".toList).insert "garlic".toList).delete
          "garlic".toList).1).startsWith "gar".toList = false) := by
  decide

/-- C4: whenever `delete(w)` returns true, the root is left with an empty
children map and `isEndOfWord = false` — the call returns true only when it
leaves the trie holding no words at all. -/
theorem c4_delete_true_empties_trie (t : Trie) (w : List Char)
    (h : (t.delete w).2 = true) :
    ((t.delete w).1).root.children = [] ∧ ((t.delete w).1).root.isEndOfWord = false :=
  deleteHelper_true_empty t.root w h

/-- Witness for C4 at the one-word trie {"a"} and w = "a". -/
theorem c4_witness :
    ((Trie.new.insert "a".toList).delete "a".toList).2 = true ∧
    ((((Trie.new.insert "a".toList).delete "a".toList).1).root.children = [] ∧
      (((Trie.new.insert "a".toList).delete "a".toList).1).root.isEndOfWord = false) :=
  ⟨by decide, c4_delete_true_empties_trie (Trie.new.insert "a".toList) "a".toList (by decide)⟩

/-- C5: on any well-formed trie state (distinct keys in every children map —
true of every state a JS `Map` can be in), `delete(w)` leaves `searchWord(w)`
false and preserves `searchWord(v)` for every `v ≠ w`, whatever boolean it
returns: the member set afterwards is the member set before minus `{w}`. -/
theorem c5_delete_membership (t : Trie) (w : List Char) (hwf : wf t.root = true) :
    ((t.delete w).1).searchWord w = false ∧
      ∀ v : List Char, v ≠ w → ((t.delete w).1).searchWord v = t.searchWord v :=
  ⟨searchNode_deleteHelper_self w t.root hwf,
    fun v hv => searchNode_deleteHelper_ne w v t.root hwf hv⟩

/-- Witness for C5 at the trie {"ab"}, deleting "a" and observing "ab". -/
theorem c5_witness :
    wf (Trie.new.insert "ab".toList).root = true ∧
    "ab".toList ≠ "a".toList ∧
    (((Trie.new.insert "ab".toList).delete "a".toList).1).searchWord "a".toList = false ∧
    (((Trie.new.insert "ab".toList).delete "a".toList).1).searchWord "ab".toList =
      (Trie.new.insert "ab".toList).searchWord "ab".toList :=
  ⟨by decide, by decide,
    (c5_delete_membership (Trie.new.insert "ab".toList) "a".toList (by decide)).1,
    (c5_delete_membership (Trie.new.insert "ab".toList) "a".toList (by decide)).2
      "ab".toList (by decide)⟩

/-- C6: if `w` is not a member (`searchWord` false, because its path is
incomplete or the terminal flag is off), then `delete(w)` returns false and
returns the trie completely unchanged. -/
theorem c6_delete_not_member_noop (t : Trie) (w : List Char)
    (h : t.searchWord w = false) : t.delete w = (t, false) := by
  have hd := deleteHelper_not_found t.root w h
  simp [Trie.delete, hd]

/-- Witness for C6 at the empty trie and the never-inserted word "xyz". -/
theorem c6_witness :
    Trie.new.searchWord "xyz".toList = false ∧
    Trie.new.delete "xyz".toList = (Trie.new, false) :=
  ⟨by decide, c6_delete_not_member_noop Trie.new "xyz".toList (by decide)⟩

/-- C7: deleting a member `w` that is a strict prefix of another member
(witnessed by an extension `w ++ c :: s` in the trie) only clears
`isEndOfWord` on `w`'s terminal node: the resulting root equals the
spec-side `specEraseEnd`, the call returns false, and the node count is
unchanged.  And concretely, after inserting "cat" and "car" then deleting
"cat", `searchWord("car")` is true, `startsWith("ca")` is true and
`searchWord("cat")` is false. -/
theorem c7_strict_shared_path_delete :
    (∀ (t : Trie) (w : List Char) (c : Char) (s : List Char),
        t.searchWord w = true → t.searchWord (w ++ c :: s) = true →
        (t.delete w).1.root = specEraseEnd t.root w ∧ (t.delete w).2 = false ∧
          nodeCount (t.delete w).1.root = nodeCount t.root) ∧
    ((((Trie.new.insert "cat".toList).insert "car".toList).delete
        "cat".toList).1).searchWord "car".toList = true ∧
    ((((Trie.new.insert "cat".toList).insert "car".toList).delete
        "cat".toList).1).startsWith "ca".toList = true ∧
    ((((Trie.new.insert "cat".toList).insert "car".toList).delete
        "cat".toList).1).searchWord "cat".toList = false := by
  refine ⟨?_, by decide, by decide, by decide⟩
  intro t w c s hmem hext
  have hd := deleteHelper_of_extension w c s t.root hmem hext
  refine ⟨?_, ?_, ?_⟩
  · show (deleteHelper t.root w).1 = specEraseEnd t.root w
    rw [hd]
  · show (deleteHelper t.root w).2 = false
    rw [hd]
  · show nodeCount (deleteHelper t.root w).1 = nodeCount t.root
    rw [hd]
    exact nodeCount_specEraseEnd w t.root

/-- Witness for C7 at the trie {"ab", "a"}, deleting "a" (a strict prefix of
the member "ab"). -/
theorem c7_witness :
    ((Trie.new.insert "ab".toList).insert "a".toList).searchWord "a".toList = true ∧
    ((Trie.new.insert "ab".toList).insert "a".toList).searchWord
      ("a".toList ++ 'b' :: []) = true ∧
    ((((Trie.new.insert "ab".toList).insert "a".toList).delete "a".toList).1.root =
        specEraseEnd ((Trie.new.insert "ab".toList).insert "a".toList).root "a".toList ∧
      (((Trie.new.insert "ab".toList).insert "a".toList).delete "a".toList).2 = false ∧
      nodeCount (((Trie.new.insert "ab".toList).insert "a".toList).delete
          "a".toList).1.root =
        nodeCount ((Trie.new.insert "ab".toList).insert "a".toList).root) :=
  ⟨by decide, by decide,
    c7_strict_shared_path_delete.1 ((Trie.new.insert "ab".toList).insert "a".toList)
      "a".toList 'b' [] (by decide) (by decide)⟩

/-- C8: every state reachable from `new Trie()` by a sequence of `insert`
and `delete` calls still has its root (`run` always yields a trie with a
root node, by construction of the embedding), every node sits on its
character-labeled path from the root (structural in the tree embedding),
the children maps have distinct keys (`wf`), and every non-root node's
subtree contains an end-of-word node (`pruned`): it is an ancestor of an
end-of-word node or is one itself — no dangling non-terminal leaf survives
any operation. -/
theorem c8_reachable_invariant (ops : List Op) :
    wf (run ops).root = true ∧ pruned (run ops).root = true :=
  wf_pruned_foldl ops Trie.new (by decide)

/-- C9: `insert` always succeeds (it is total), and after `insert(w)` with
`w = p ++ q`, `searchWord(w)` is true and `startsWith(p)` is true — every
prefix of the inserted word, the empty word included, is a live path. -/
theorem c9_insert_search_starts (t : Trie) (p q : List Char) :
    (t.insert (p ++ q)).searchWord (p ++ q) = true ∧
      (t.insert (p ++ q)).startsWith p = true :=
  ⟨searchNode_insertNode_self (p ++ q) t.root, startsWithNode_insertNode_append p q t.root⟩

/-- C10: inserting the same word twice is the same as inserting it once —
the repeated insert returns the identical trie (so no children map grows)
and `searchWord(w)` stays true. -/
theorem c10_insert_idem (t : Trie) (w : List Char) :
    (t.insert w).insert w = t.insert w ∧
      ((t.insert w).insert w).searchWord w = true := by
  have h : insertNode (insertNode t.root w) w = insertNode t.root w := insertNode_idem w t.root
  refine ⟨?_, ?_⟩
  · show (⟨insertNode (insertNode t.root w) w⟩ : Trie) = ⟨insertNode t.root w⟩
    rw [h]
  · show searchNode (insertNode (insertNode t.root w) w) w = true
    rw [h]
    exact searchNode_insertNode_self w t.root

example : (Trie.new.insert "gas".toList).searchWord "gas".toList = true := by decide
example : ((Trie.new.insert "gas".toList).insert "garlic".toList).startsWith "ga".toList = true := by
  decide
example :
    (((Trie.new.insert "gas".toList).insert "garlic".toList).delete "garlic".toList).2 = false := by
  decide
example :
    ((((Trie.new.insert "gas".toList).insert "garlic".toList).delete
      "garlic".toList).1).startsWith "gar".toList = false := by decide
example : ((Trie.new.insert "a".toList).delete "a".toList).2 = true := by decide

end TrieVis
